import Mathlib

/-!
Formal model of the Cee-Lo outcome allocation and ranking engine of
`src/server.js` (street-dice-web).

The embedding follows the source:
  * `Hand` embeds the hand objects produced by `rollCeeLo` (server.js:44-55):
    the `type` tag together with its `triple`/`point` payload.  The `dice`
    and `label` fields of the JS object are presentational (they never feed
    into `outcomeKey`, `rankScore` or `computeLeaders`) and are not carried.
  * `classifyTriple` is the body of one iteration of `rollCeeLo`'s loop:
    sort the three dice ascending, then run the if-chain; `none` models the
    case where no branch matches and the loop re-rolls.
  * `allocate` is the bounded rejection-sampling loop of the
    `/api/roll` handler (server.js:126-132), fed by an explicit stream of
    classified hands.
  * `computeLeaders` (server.js:64-73), `rollHandler` (server.js:118-138)
    and `setNames` (server.js:158-172) are transcribed below.
JavaScript strings are Lean `String`s; `name.trim()` is `trimName` and
`localeCompare`-induced ascending name order is `nameLe` (lexicographic on
character codes), both written over `List Char` so they compute.
-/

/-- Embeds the hand objects of `rollCeeLo` (server.js:48-53): the four
`type` tags `"456"`, `"123"`, `"triple"` (with its `triple` field) and
`"point"` (with its `point` field). -/
inductive Hand where
  | h456 : Hand
  | h123 : Hand
  | triple (value : Nat) : Hand
  | point (value : Nat) : Hand
deriving DecidableEq

/-- Lexicographic comparison of character lists by character code, the
shallow embedding of the comparator `A.name.localeCompare(B.name)` used at
server.js:69 (true when the first string sorts at or before the second). -/
def lexLeChars : List Char → List Char → Bool
  | [], _ => true
  | _ :: _, [] => false
  | x :: xs, y :: ys =>
    if x.toNat < y.toNat then true
    else if y.toNat < x.toNat then false
    else lexLeChars xs ys

/-- Ascending-name order on participant names (see `lexLeChars`). -/
def nameLe (a b : String) : Bool :=
  lexLeChars a.data b.data

/-- Embeds `String.prototype.trim()` as used at server.js:119 and
server.js:161: drop whitespace from both ends. -/
def trimName (s : String) : String :=
  ⟨((s.data.dropWhile Char.isWhitespace).reverse.dropWhile Char.isWhitespace).reverse⟩

/-- Embeds the classification if-chain inside `rollCeeLo`
(server.js:46-53): sort the three dice ascending, then test the six
branches in source order.  `none` models a fall-through (no branch
matches, the JS loop draws again). -/
def classifyTriple (x y z : Nat) : Option Hand :=
  match List.insertionSort (· ≤ ·) [x, y, z] with
  | [a, b, c] =>
    if a = 4 ∧ b = 5 ∧ c = 6 then some Hand.h456
    else if a = 1 ∧ b = 2 ∧ c = 3 then some Hand.h123
    else if a = b ∧ b = c then some (Hand.triple a)
    else if a = b ∧ b ≠ c then some (Hand.point c)
    else if b = c ∧ a ≠ b then some (Hand.point a)
    else if a = c ∧ b ≠ a then some (Hand.point b)
    else none
  | _ => none

/-- Embeds `outcomeKey` (server.js:76-82).  The `!h` and fall-through
branches of the JS function are unreachable for the four `Hand` variants
and are not represented. -/
def outcomeKey : Hand → String
  | Hand.h456 => "456"
  | Hand.h123 => "123"
  | Hand.triple n => "triple:" ++ toString n
  | Hand.point n => "point:" ++ toString n

/-- Embeds `MAX_UNIQUE` (server.js:83). -/
def MAX_UNIQUE : Nat := 14

/-- Embeds `rankScore` (server.js:56-63) on a (non-null) hand; the `!h`
and unknown-type branches returning `-1` are unreachable for the four
`Hand` variants. -/
def rankScore : Hand → Int
  | Hand.h456 => 400
  | Hand.triple n => 300 + (n : Int)
  | Hand.point n => 100 + (n : Int)
  | Hand.h123 => 0

/-- Embeds the do-while rejection loop of the `/api/roll` handler
(server.js:126-132).  `draws i` is the hand produced by the `i`-th call to
`rollCeeLo`, `used` the set of already-claimed outcome keys, and `fuel`
the number of draws still allowed before the `tries > 20000` guard fires;
`none` models the "Exceeded attempts for unique outcome" (HTTP 500)
response. -/
def allocateFrom (draws : Nat → Hand) (used : Finset String) : Nat → Nat → Option Hand
  | _, 0 => none
  | i, Nat.succ fuel =>
    if outcomeKey (draws i) ∈ used then allocateFrom draws used (i + 1) fuel
    else some (draws i)

/-- The allocation loop started with `tries = 0`: at most 20000 draws are
examined (server.js:131). -/
def allocate (draws : Nat → Hand) (used : Finset String) : Option Hand :=
  allocateFrom draws used 0 20000

/-- One element of the `withScores` array built at server.js:68: a roster
name, the hand recorded for it, and `rankScore` of that hand. -/
structure ScoredEntry where
  name : String
  hand : Hand
  score : Int
deriving DecidableEq

/-- The sort order of the comparator
`(A,B) => B.score - A.score || A.name.localeCompare(B.name)`
(server.js:69): descending score, then ascending name. -/
def entryLe (A B : ScoredEntry) : Prop :=
  B.score < A.score ∨ (A.score = B.score ∧ nameLe A.name B.name = true)

instance : DecidableRel entryLe := fun A B => by
  unfold entryLe; infer_instance

/-- Result of `computeLeaders` (server.js:64-73): either the
`{ ready:false }` object or `{ ready:true, leaders, topScore }`. -/
inductive LeadersRes where
  | notReady : LeadersRes
  | ready (leaders : List ScoredEntry) (topScore : Int) : LeadersRes
deriving DecidableEq

/-- The `rolled` array (server.js:65-66): one `(name, hand)` pair for each
roster name that has a recorded hand, in roster order. -/
def rolledList (friends : List String) (results : List (String × Hand)) :
    List (String × Hand) :=
  (friends.map (fun name => (name, results.lookup name))).filterMap
    (fun e => e.2.map (fun h => (e.1, h)))

/-- The unsorted `withScores` array (server.js:68). -/
def scoredList (friends : List String) (results : List (String × Hand)) :
    List ScoredEntry :=
  (rolledList friends results).map (fun e => ⟨e.1, e.2, rankScore e.2⟩)

/-- Lines 70-72 of server.js applied to the sorted `withScores` array:
`topScore = withScores[0].score` and
`leaders = withScores.filter(e => e.score === topScore)`.  On an empty
array, `withScores[0]` is `undefined` and `.score` throws a `TypeError`;
`none` models that crash. -/
def readyResult : List ScoredEntry → Option LeadersRes
  | [] => none
  | top :: rest =>
    some (LeadersRes.ready
      ((top :: rest).filter (fun e => decide (e.score = top.score))) top.score)

/-- Embeds `computeLeaders` (server.js:64-73).  The roster read from
`state.friends` is passed explicitly; the results object is an
association list queried with `List.lookup`.  The in-place `.sort` of
line 69 is modelled by `insertionSort` with `entryLe` (a stable sort by
the same total preorder). -/
def computeLeaders (friends : List String) (results : List (String × Hand)) :
    Option LeadersRes :=
  if (rolledList friends results).length ≠ friends.length then
    some LeadersRes.notReady
  else
    readyResult (List.insertionSort entryLe (scoredList friends results))

/-- The mutable server state consumed by the handlers: `state.friends`
and `state.results` (server.js:17-21).  `updatedAt` and persistence are
not modelled. -/
structure ServerState where
  friends : List String
  results : List (String × Hand)
deriving DecidableEq

/-- The four error responses of the `/api/roll` handler
(server.js:120-131). -/
inductive RollError where
  | notInRoster : RollError
  | alreadyRolled : RollError
  | outcomesExhausted : RollError
  | allocationExhausted : RollError
deriving DecidableEq

/-- Embeds the `/api/roll` handler (server.js:118-138): trim the
requested name; reject names not in the roster, repeat rolls, and an
exhausted outcome universe; otherwise run the allocation loop and, on
success, record the hand under the name.  The returned state is the
state after the request. -/
def rollHandler (st : ServerState) (draws : Nat → Hand) (rawName : String) :
    Except RollError Hand × ServerState :=
  let name := trimName rawName
  if ¬ st.friends.contains name then (Except.error RollError.notInRoster, st)
  else if (st.results.lookup name).isSome then
    (Except.error RollError.alreadyRolled, st)
  else
    let used : Finset String := (st.results.map (fun p => outcomeKey p.2)).toFinset
    if MAX_UNIQUE ≤ used.card then (Except.error RollError.outcomesExhausted, st)
    else
      match allocate draws used with
      | none => (Except.error RollError.allocationExhausted, st)
      | some hand =>
        (Except.ok hand, { st with results := st.results ++ [(name, hand)] })

/-- The duplicate filter of server.js:162: keep the first occurrence of
each name (`seen` holds the names already kept). -/
def dedupKeepFirst (seen : List String) : List String → List String
  | [] => []
  | n :: rest =>
    if n ∈ seen then dedupKeepFirst seen rest
    else n :: dedupKeepFirst (n :: seen) rest

/-- Embeds the `/api/admin/set-names` handler (server.js:158-172) on an
already-parsed array of strings: trim each entry, drop empty strings,
drop duplicate names, require at least one name, then install the new
roster and retain exactly the recorded results whose names survive. -/
def setNames (st : ServerState) (friendsInput : List String) :
    Except String ServerState :=
  let friends1 := (friendsInput.map trimName).filter (fun s => decide (s ≠ ""))
  let friends2 := dedupKeepFirst [] friends1
  if friends2.length = 0 then Except.error "Need at least one name"
  else
    Except.ok
      { friends := friends2
        results := friends2.filterMap
          (fun n => (st.results.lookup n).map (fun h => (n, h))) }

/-- Whatever hand the allocation loop accepts, its key was not claimed:
the loop only exits through the `!used.has(key)` test. -/
theorem allocateFrom_some_key (draws : Nat → Hand) (used : Finset String) :
    ∀ fuel i hand, allocateFrom draws used i fuel = some hand →
      outcomeKey hand ∉ used := by
  intro fuel
  induction fuel with
  | zero => intro i hand h; simp [allocateFrom] at h
  | succ fuel ih =>
    intro i hand h
    by_cases hk : outcomeKey (draws i) ∈ used
    · rw [allocateFrom, if_pos hk] at h
      exact ih _ _ h
    · rw [allocateFrom, if_neg hk] at h
      exact (Option.some.inj h) ▸ hk

/-- The allocation loop examines at most `fuel` draws: it returns `none`,
or it returns one of the draws `i, …, i + fuel - 1`, whose key was
unclaimed. -/
theorem allocateFrom_bounded (draws : Nat → Hand) (used : Finset String) :
    ∀ fuel i, allocateFrom draws used i fuel = none ∨
      ∃ j, i ≤ j ∧ j < i + fuel ∧
        allocateFrom draws used i fuel = some (draws j) ∧
        outcomeKey (draws j) ∉ used := by
  intro fuel
  induction fuel with
  | zero => intro i; left; rfl
  | succ fuel ih =>
    intro i
    by_cases hk : outcomeKey (draws i) ∈ used
    · rcases ih (i + 1) with h | ⟨j, hij, hlt, heq, hfree⟩
      · left; rw [allocateFrom, if_pos hk]; exact h
      · right
        exact ⟨j, by omega, by omega, by rw [allocateFrom, if_pos hk]; exact heq, hfree⟩
    · right
      exact ⟨i, Nat.le_refl i, by omega, by rw [allocateFrom, if_neg hk], hk⟩

/-- C2: whenever the allocation loop of the roll operation returns an
outcome while at least one of the 14 keys is still free, the returned
outcome's key is not a member of the claimed-key set at the moment of the
check. -/
theorem allocate_key_unclaimed (draws : Nat → Hand) (used : Finset String) (hand : Hand)
    (_hfree : used.card < MAX_UNIQUE)
    (h : allocate draws used = some hand) :
    outcomeKey hand ∉ used :=
  allocateFrom_some_key draws used 20000 0 hand h

theorem allocate_key_unclaimed_witness :
    (∅ : Finset String).card < MAX_UNIQUE ∧
      allocate (fun _ => Hand.h456) ∅ = some Hand.h456 ∧
      outcomeKey Hand.h456 ∉ (∅ : Finset String) :=
  ⟨by decide, rfl, allocate_key_unclaimed (fun _ => Hand.h456) ∅ Hand.h456 (by decide) rfl⟩

/-- C3: for every stream of draws the allocation loop completes: either
it fails (the `AllocationExhausted` error, modelled by `none`), or it
returns an accepted outcome taken from one of the first 20000 draws,
whose key was unclaimed.  It never examines draws beyond the cap. -/
theorem allocate_bounded_termination (draws : Nat → Hand) (used : Finset String) :
    allocate draws used = none ∨
      ∃ i, i < 20000 ∧ allocate draws used = some (draws i) ∧
        outcomeKey (draws i) ∉ used := by
  rcases allocateFrom_bounded draws used 20000 0 with h | ⟨j, _, hlt, heq, hfree⟩
  · exact Or.inl h
  · exact Or.inr ⟨j, by omega, heq, hfree⟩

/-- The 14 outcome slots in the ranking order asserted by the spec:
auto-win first, then triples 6 down to 1, then points 6 down to 1, then
auto-loss. -/
def slotOrder : List Hand :=
  [Hand.h456,
   Hand.triple 6, Hand.triple 5, Hand.triple 4, Hand.triple 3, Hand.triple 2,
   Hand.triple 1,
   Hand.point 6, Hand.point 5, Hand.point 4, Hand.point 3, Hand.point 2,
   Hand.point 1,
   Hand.h123]

/-- C6: `rankScore` is strictly decreasing along the slot order
AutoWin > Triple(6) > … > Triple(1) > Point(6) > … > Point(1) > AutoLoss,
so each of the 14 slots gets a distinct score; `slotOrder` has exactly
`MAX_UNIQUE` slots, `Triple(3)` scores 303 and `Point(5)` scores 105. -/
theorem rankScore_slot_order :
    (slotOrder.map rankScore).Pairwise (fun x y => y < x)
    ∧ slotOrder.length = MAX_UNIQUE
    ∧ rankScore (Hand.triple 3) = 303
    ∧ rankScore (Hand.point 5) = 105 := by decide

/-- C1 counterexample: the sorted triple (1,2,4) — three distinct values
that form neither run — matches no branch of the classification chain, so
`rollCeeLo` leaves it unclassified and re-rolls. -/
theorem classifyTriple_one_two_four_unclassified :
    classifyTriple 1 2 4 = none := by decide

/-- The value of the `i`-th die face, mapping `Fin 6` onto [1,6]. -/
def dv (i : Fin 6) : Nat := i.val + 1

/-- C1 (amended): classification assigns at most one outcome class (it is
a function into `Option Hand`), and it assigns one exactly when the three
dice contain a repeated value or sort to the run 4-5-6 or 1-2-3; the
remaining triples (three distinct values forming neither run) are left
unclassified and the roller draws again.  Checked over all 216 ordered
triples. -/
theorem classifyTriple_total_iff :
    ∀ a b c : Fin 6,
      (classifyTriple (dv a) (dv b) (dv c)).isSome = true ↔
        (dv a = dv b ∨ dv b = dv c ∨ dv a = dv c
          ∨ List.insertionSort (· ≤ ·) [dv a, dv b, dv c] = [4, 5, 6]
          ∨ List.insertionSort (· ≤ ·) [dv a, dv b, dv c] = [1, 2, 3]) := by decide

/-- The property C7 asserts of a triple classified as `Point v`: one pair
of the three dice are equal to each other, the remaining die differs from
the pair and equals `v` (hence `v` differs from the pair's value). -/
def pointProp (x y z v : Nat) : Prop :=
  (x = y ∧ x ≠ z ∧ z = v) ∨ (y = z ∧ y ≠ x ∧ x = v) ∨ (x = z ∧ x ≠ y ∧ y = v)

instance (x y z v : Nat) : Decidable (pointProp x y z v) := by
  unfold pointProp; infer_instance

/-- Decidable form of "if this triple classifies as a point, `pointProp`
holds of its value". -/
def pointSoundB (x y z : Nat) : Bool :=
  match classifyTriple x y z with
  | some (Hand.point v) => decide (pointProp x y z v)
  | _ => true

/-- Exhaustive check of `pointSoundB` over all 216 ordered triples. -/
theorem pointSoundB_all : ∀ a b c : Fin 6,
    pointSoundB (dv a) (dv b) (dv c) = true := by decide

/-- C7: every triple of dice classified as `Point v` has exactly two dice
equal to each other, its third die equals `v`, and `v` differs from the
repeated pair's value. -/
theorem classifyTriple_point_sound (a b c : Fin 6) (v : Nat)
    (h : classifyTriple (dv a) (dv b) (dv c) = some (Hand.point v)) :
    pointProp (dv a) (dv b) (dv c) v := by
  have hb := pointSoundB_all a b c
  unfold pointSoundB at hb
  rw [h] at hb
  exact of_decide_eq_true hb

theorem classifyTriple_point_sound_witness :
    classifyTriple (dv 1) (dv 1) (dv 4) = some (Hand.point 5)
    ∧ pointProp (dv 1) (dv 1) (dv 4) 5 :=
  ⟨by decide, classifyTriple_point_sound 1 1 4 5 (by decide)⟩

/-- Unfolding of `rolledList` over the head of the roster. -/
theorem rolledList_cons (n : String) (fs : List String)
    (r : List (String × Hand)) :
    rolledList (n :: fs) r =
      match r.lookup n with
      | some h => (n, h) :: rolledList fs r
      | none => rolledList fs r := by
  cases hl : r.lookup n <;>
    simp [rolledList, List.filterMap_cons, hl]

/-- At most one rolled entry arises per roster name. -/
theorem rolledList_length_le (friends : List String)
    (results : List (String × Hand)) :
    (rolledList friends results).length ≤ friends.length := by
  induction friends with
  | nil => simp [rolledList]
  | cons n fs ih =>
    rw [rolledList_cons]
    cases results.lookup n <;> simp <;> omega

/-- The `rolled.length !== friends.length` readiness test of server.js:67:
the lengths agree exactly when every roster name has a recorded hand. -/
theorem rolledList_length_eq_iff (friends : List String)
    (results : List (String × Hand)) :
    (rolledList friends results).length = friends.length ↔
      ∀ n ∈ friends, (results.lookup n).isSome := by
  induction friends with
  | nil => simp [rolledList]
  | cons n fs ih =>
    rw [rolledList_cons]
    cases hl : results.lookup n with
    | none =>
      have hle := rolledList_length_le fs results
      simp only [List.length_cons, List.mem_cons]
      constructor
      · intro h; omega
      · intro h
        have := h n (Or.inl rfl)
        rw [hl] at this
        simp at this
    | some h0 =>
      simp only [List.length_cons, List.mem_cons, Nat.add_right_cancel_iff]
      rw [ih]
      constructor
      · intro h m hm
        rcases hm with rfl | hm
        · rw [hl]; rfl
        · exact h m hm
      · intro h m hm
        exact h m (Or.inr hm)

/-- C4 counterexample: on the empty roster with empty results — an input
where every roster participant vacuously has a recorded outcome — the
evaluator does not return a Ready value: `withScores[0].score` is
evaluated on an empty array and throws (modelled by `none`). -/
theorem computeLeaders_empty_roster_crash :
    computeLeaders ([] : List String) ([] : List (String × Hand)) = none := by decide

/-- C4 (amended): for every NONEMPTY roster, the evaluator returns
NotReady iff some roster participant has no recorded outcome, and once
every roster participant has a recorded outcome it returns Ready with
leaders and topScore.  For the empty roster the evaluator instead crashes
on `withScores[0].score` (see the counterexample). -/
theorem computeLeaders_ready_iff (friends : List String)
    (results : List (String × Hand)) (hne : friends ≠ []) :
    (computeLeaders friends results = some LeadersRes.notReady ↔
      ∃ n ∈ friends, results.lookup n = none)
    ∧ ((∀ n ∈ friends, (results.lookup n).isSome) →
        ∃ leaders top,
          computeLeaders friends results
            = some (LeadersRes.ready leaders top)) := by
  by_cases hall : ∀ n ∈ friends, (results.lookup n).isSome
  · have hlen : (rolledList friends results).length = friends.length :=
      (rolledList_length_eq_iff friends results).mpr hall
    have hcl : computeLeaders friends results
        = readyResult (List.insertionSort entryLe (scoredList friends results)) := by
      unfold computeLeaders
      rw [if_neg (by omega)]
    have hslen : (List.insertionSort entryLe (scoredList friends results)).length
        = friends.length := by
      rw [(List.perm_insertionSort entryLe _).length_eq]
      simp [scoredList, hlen]
    cases hs : List.insertionSort entryLe (scoredList friends results) with
    | nil =>
      rw [hs] at hslen
      cases friends with
      | nil => exact absurd rfl hne
      | cons f fs => simp at hslen
    | cons t rest =>
      rw [hs] at hcl
      refine ⟨⟨fun hcontra => ?_, fun ⟨n, hn, hnone⟩ => ?_⟩,
        fun _ => ⟨_, _, by rw [hcl]; rfl⟩⟩
      · rw [hcl] at hcontra
        simp [readyResult] at hcontra
      · have := hall n hn
        rw [hnone] at this
        simp at this
  · have hlen : (rolledList friends results).length ≠ friends.length := by
      intro he
      exact hall ((rolledList_length_eq_iff friends results).mp he)
    have hcl : computeLeaders friends results = some LeadersRes.notReady := by
      unfold computeLeaders
      rw [if_pos hlen]
    refine ⟨⟨fun _ => ?_, fun _ => hcl⟩, fun hallx => absurd hallx hall⟩
    push_neg at hall
    obtain ⟨n, hn, hnone⟩ := hall
    exact ⟨n, hn, Option.not_isSome_iff_eq_none.mp hnone⟩

theorem computeLeaders_ready_iff_witness :
    ((["A", "B"] : List String) ≠ [])
    ∧ computeLeaders ["A", "B"] [("A", Hand.triple 3)] = some LeadersRes.notReady :=
  ⟨by decide,
    ((computeLeaders_ready_iff ["A", "B"] [("A", Hand.triple 3)]
        (by decide)).1).mpr ⟨"B", by decide, by decide⟩⟩

/-- C10: the evaluator reads the results mapping only at roster names, so
two results mappings agreeing on every roster name — in particular a
mapping and its restriction to the roster — produce identical output:
entries under non-roster names never affect readiness, leaders, or
topScore. -/
theorem computeLeaders_ignores_non_roster (friends : List String)
    (r1 r2 : List (String × Hand))
    (h : ∀ n ∈ friends, r1.lookup n = r2.lookup n) :
    computeLeaders friends r1 = computeLeaders friends r2 := by
  have hr : rolledList friends r1 = rolledList friends r2 := by
    unfold rolledList
    congr 1
    exact List.map_congr_left (fun n hn => by rw [h n hn])
  unfold computeLeaders scoredList
  rw [hr]

theorem computeLeaders_ignores_non_roster_witness :
    computeLeaders ["A"] [("A", Hand.h456)]
      = computeLeaders ["A"] [("A", Hand.h456), ("X", Hand.triple 2)] :=
  computeLeaders_ignores_non_roster ["A"] _ _ (by decide)

/-- The name order is total. -/
theorem lexLeChars_total : ∀ xs ys : List Char,
    lexLeChars xs ys = true ∨ lexLeChars ys xs = true := by
  intro xs
  induction xs with
  | nil => intro ys; left; rfl
  | cons x xs ih =>
    intro ys
    cases ys with
    | nil => right; rfl
    | cons y ys =>
      by_cases hxy : x.toNat < y.toNat
      · left; simp [lexLeChars, hxy]
      · by_cases hyx : y.toNat < x.toNat
        · right; simp [lexLeChars, hyx]
        · rcases ih ys with h | h
          · left; simp [lexLeChars, hxy, hyx, h]
          · right; simp [lexLeChars, hxy, hyx, h]

/-- The name order is transitive. -/
theorem lexLeChars_trans : ∀ xs ys zs : List Char,
    lexLeChars xs ys = true → lexLeChars ys zs = true →
      lexLeChars xs zs = true := by
  intro xs
  induction xs with
  | nil => intro ys zs _ _; rfl
  | cons x xs ih =>
    intro ys zs h1 h2
    cases ys with
    | nil => simp [lexLeChars] at h1
    | cons y ys =>
      cases zs with
      | nil => simp [lexLeChars] at h2
      | cons z zs =>
        by_cases hxy : x.toNat < y.toNat
        · by_cases hzy : z.toNat < y.toNat
          · by_cases hyz : y.toNat < z.toNat
            · have hxz : x.toNat < z.toNat := by omega
              simp [lexLeChars, hxz]
            · simp [lexLeChars, hyz, hzy] at h2
          · have hxz : x.toNat < z.toNat := by omega
            simp [lexLeChars, hxz]
        · by_cases hyx : y.toNat < x.toNat
          · simp [lexLeChars, hxy, hyx] at h1
          · by_cases hyz : y.toNat < z.toNat
            · have hxz : x.toNat < z.toNat := by omega
              simp [lexLeChars, hxz]
            · by_cases hzy : z.toNat < y.toNat
              · simp [lexLeChars, hyz, hzy] at h2
              · have h1' : lexLeChars xs ys = true := by
                  simpa [lexLeChars, hxy, hyx] using h1
                have h2' : lexLeChars ys zs = true := by
                  simpa [lexLeChars, hyz, hzy] using h2
                have hxz1 : ¬ x.toNat < z.toNat := by omega
                have hxz2 : ¬ z.toNat < x.toNat := by omega
                simp [lexLeChars, hxz1, hxz2, ih ys zs h1' h2']

instance : IsTotal ScoredEntry entryLe :=
  ⟨by
    intro A B
    rcases lt_trichotomy A.score B.score with h | h | h
    · exact Or.inr (Or.inl h)
    · rcases lexLeChars_total A.name.data B.name.data with hn | hn
      · exact Or.inl (Or.inr ⟨h, hn⟩)
      · exact Or.inr (Or.inr ⟨h.symm, hn⟩)
    · exact Or.inl (Or.inl h)⟩

instance : IsTrans ScoredEntry entryLe :=
  ⟨by
    intro A B C hAB hBC
    rcases hAB with h1 | ⟨e1, n1⟩ <;> rcases hBC with h2 | ⟨e2, n2⟩
    · exact Or.inl (lt_trans h2 h1)
    · exact Or.inl (e2 ▸ h1)
    · exact Or.inl (by rw [e1]; exact h2)
    · exact Or.inr ⟨e1.trans e2, lexLeChars_trans _ _ _ n1 n2⟩⟩

/-- C5: whenever the evaluator returns Ready, `leaders` contains exactly
the scored entries whose score equals `topScore`, `topScore` is the
maximum score over all rolled entries, and `leaders` is ordered by the
comparator (descending score then ascending name) — hence, scores being
equal within `leaders`, by ascending name.  The evaluator is a pure
function, so the output is deterministic for identical input. -/
theorem computeLeaders_leaders_spec (friends : List String)
    (results : List (String × Hand)) (leaders : List ScoredEntry) (top : Int)
    (h : computeLeaders friends results = some (LeadersRes.ready leaders top)) :
    (∀ e, e ∈ leaders ↔ e ∈ scoredList friends results ∧ e.score = top)
    ∧ (∀ e ∈ scoredList friends results, e.score ≤ top)
    ∧ leaders.Pairwise entryLe
    ∧ leaders.Pairwise (fun x y => nameLe x.name y.name = true) := by
  unfold computeLeaders at h
  by_cases hlen : (rolledList friends results).length ≠ friends.length
  · rw [if_pos hlen] at h
    simp at h
  · rw [if_neg hlen] at h
    have hperm := List.perm_insertionSort entryLe (scoredList friends results)
    have hsort := List.sorted_insertionSort entryLe (scoredList friends results)
    cases hs : List.insertionSort entryLe (scoredList friends results) with
    | nil =>
      rw [hs] at h
      simp [readyResult] at h
    | cons t rest =>
      rw [hs] at h hperm hsort
      have h' := Option.some.inj h
      obtain ⟨hl, ht⟩ := LeadersRes.ready.inj h'
      subst hl
      subst ht
      have hpwle : ((t :: rest).filter
          (fun e => decide (e.score = t.score))).Pairwise entryLe :=
        List.Pairwise.sublist (List.filter_sublist _) hsort
      refine ⟨?_, ?_, hpwle, ?_⟩
      · intro e
        simp only [List.mem_filter, decide_eq_true_eq]
        rw [hperm.mem_iff]
      · intro e he
        have he' : e ∈ t :: rest := hperm.mem_iff.mpr he
        rcases List.mem_cons.mp he' with rfl | hrest
        · exact le_refl _
        · rcases List.rel_of_sorted_cons hsort e hrest with hlt | ⟨heq, _⟩
          · exact le_of_lt hlt
          · exact le_of_eq heq.symm
      · refine List.Pairwise.imp_of_mem ?_ hpwle
        intro a b ha hb hab
        have ha' : a.score = t.score := of_decide_eq_true (List.mem_filter.mp ha).2
        have hb' : b.score = t.score := of_decide_eq_true (List.mem_filter.mp hb).2
        rcases hab with hlt | ⟨_, hn⟩
        · rw [ha', hb'] at hlt
          exact absurd hlt (lt_irrefl _)
        · exact hn

theorem computeLeaders_leaders_spec_witness :
    computeLeaders ["A", "B"] [("A", Hand.triple 3), ("B", Hand.triple 3)]
      = some (LeadersRes.ready
          [⟨"A", Hand.triple 3, 303⟩, ⟨"B", Hand.triple 3, 303⟩] 303)
    ∧ ([⟨"A", Hand.triple 3, 303⟩, ⟨"B", Hand.triple 3, 303⟩]
        : List ScoredEntry).Pairwise
          (fun x y => nameLe x.name y.name = true) :=
  ⟨by decide,
    (computeLeaders_leaders_spec ["A", "B"]
      [("A", Hand.triple 3), ("B", Hand.triple 3)]
      [⟨"A", Hand.triple 3, 303⟩, ⟨"B", Hand.triple 3, 303⟩] 303
      (by decide)).2.2.2⟩

/-- C8: the roll handler mutates `results` only on success: every error
response leaves `results` exactly as it was, and a success appends
exactly one entry under the (trimmed) participant name. -/
theorem rollHandler_error_no_mutation (st : ServerState) (draws : Nat → Hand)
    (rawName : String) :
    (∀ e, (rollHandler st draws rawName).1 = Except.error e →
        (rollHandler st draws rawName).2.results = st.results)
    ∧ (∀ hand, (rollHandler st draws rawName).1 = Except.ok hand →
        (rollHandler st draws rawName).2.results
          = st.results ++ [(trimName rawName, hand)]) := by
  simp only [rollHandler]
  split
  · exact ⟨fun e _ => rfl, fun hand hh => nomatch hh⟩
  · split
    · exact ⟨fun e _ => rfl, fun hand hh => nomatch hh⟩
    · split
      · exact ⟨fun e _ => rfl, fun hand hh => nomatch hh⟩
      · split
        · exact ⟨fun e _ => rfl, fun hand hh => nomatch hh⟩
        · refine ⟨fun e he => (nomatch he), fun hand hh => ?_⟩
          cases hh
          rfl

theorem rollHandler_error_no_mutation_witness :
    (rollHandler ⟨["A"], []⟩ (fun _ => Hand.h456) "B").1
      = Except.error RollError.notInRoster
    ∧ (rollHandler ⟨["A"], []⟩ (fun _ => Hand.h456) "B").2.results
      = ([] : List (String × Hand)) :=
  ⟨rfl,
    (rollHandler_error_no_mutation ⟨["A"], []⟩ (fun _ => Hand.h456) "B").1
      RollError.notInRoster rfl⟩

/-- A successful association-list lookup locates a genuine entry. -/
theorem lookup_mem {l : List (String × Hand)} {a : String} {b : Hand}
    (h : l.lookup a = some b) : (a, b) ∈ l := by
  induction l with
  | nil => cases h
  | cons p rest ih =>
    obtain ⟨k, v⟩ := p
    by_cases hak : a == k
    · rw [List.lookup_cons, hak] at h
      obtain rfl := Option.some.inj h
      obtain rfl := eq_of_beq hak
      exact List.mem_cons_self _ _
    · rw [List.lookup_cons, Bool.of_not_eq_true hak] at h
      exact List.mem_cons_of_mem _ (ih h)

/-- Membership in the retained-results list built by `setNames`: exactly
the entries looked up successfully under a surviving roster name. -/
theorem mem_retained {R : List (String × Hand)} {ff : List String}
    {p : String × Hand} :
    p ∈ ff.filterMap (fun n => (R.lookup n).map (fun h => (n, h))) ↔
      p.1 ∈ ff ∧ R.lookup p.1 = some p.2 := by
  obtain ⟨a, b⟩ := p
  simp only [List.mem_filterMap, Option.map_eq_some']
  constructor
  · rintro ⟨n, hn, h0, hl, heq⟩
    injection heq with e1 e2
    subst e1
    subst e2
    exact ⟨hn, hl⟩
  · rintro ⟨ha, hl⟩
    exact ⟨a, ha, b, hl, rfl⟩

/-- Looking a name up in the retained-results list gives the old recorded
hand when the name survives in the new roster, and nothing otherwise. -/
theorem retain_lookup (R : List (String × Hand)) :
    ∀ (ff : List String) (name : String),
      (ff.filterMap (fun n => (R.lookup n).map (fun h => (n, h)))).lookup name
        = if name ∈ ff then R.lookup name else none := by
  intro ff
  induction ff with
  | nil => intro name; simp
  | cons n ff ih =>
    intro name
    rw [List.filterMap_cons]
    by_cases hmem : name = n
    · subst hmem
      cases hn : R.lookup name with
      | none =>
        simp only [hn, Option.map_none']
        rw [ih name]
        by_cases h2 : name ∈ ff
        · simp [h2, hn]
        · simp [h2]
      | some h0 =>
        simp [hn]
    · cases hn : R.lookup n with
      | none =>
        simp only [hn, Option.map_none']
        rw [ih name]
        simp [List.mem_cons, hmem]
      | some h0 =>
        have hbeq : (name == n) = false := beq_eq_false_iff_ne.mpr hmem
        simp only [hn, Option.map_some', List.lookup_cons, hbeq]
        rw [ih name]
        simp [List.mem_cons, hmem]

/-- The retained-results list keeps the no-duplicate-`outcomeKey`
invariant: its entries are distinct entries of the original results list
(one per surviving name), so their keys stay pairwise distinct. -/
theorem retain_keys_nodup (R : List (String × Hand)) :
    ∀ ff : List String, ff.Nodup →
      (R.map (fun p => outcomeKey p.2)).Nodup →
      ((ff.filterMap (fun n => (R.lookup n).map (fun h => (n, h)))).map
          (fun p => outcomeKey p.2)).Nodup := by
  intro ff
  induction ff with
  | nil => intro _ _; simp
  | cons n ff ih =>
    intro hnodup hk
    obtain ⟨hn_not, hff⟩ := List.nodup_cons.mp hnodup
    rw [List.filterMap_cons]
    cases hn : R.lookup n with
    | none =>
      simp only [hn, Option.map_none']
      exact ih hff hk
    | some h0 =>
      simp only [hn, Option.map_some', List.map_cons]
      refine List.nodup_cons.mpr ⟨?_, ih hff hk⟩
      intro hmemkey
      obtain ⟨q, hq, hkey⟩ := List.mem_map.mp hmemkey
      have hqc := mem_retained.mp hq
      have hq_in_R : q ∈ R := lookup_mem hqc.2
      have hn_in_R : (n, h0) ∈ R := lookup_mem hn
      have heqp : (n, h0) = q :=
        List.inj_on_of_nodup_map hk hn_in_R hq_in_R hkey.symm
      subst heqp
      exact hn_not hqc.1

/-- The duplicate filter of `setNames` produces a duplicate-free roster,
none of whose members were already seen. -/
theorem dedupKeepFirst_nodup : ∀ (l seen : List String),
    (dedupKeepFirst seen l).Nodup ∧ ∀ x ∈ dedupKeepFirst seen l, x ∉ seen := by
  intro l
  induction l with
  | nil => intro seen; exact ⟨List.nodup_nil, by simp [dedupKeepFirst]⟩
  | cons n rest ih =>
    intro seen
    by_cases hn : n ∈ seen
    · simpa [dedupKeepFirst, hn] using ih seen
    · simp only [dedupKeepFirst, if_neg hn]
      obtain ⟨ihn, ihs⟩ := ih (n :: seen)
      refine ⟨List.nodup_cons.mpr ⟨?_, ihn⟩, ?_⟩
      · intro hmem
        exact (ihs n hmem) (List.mem_cons_self n seen)
      · intro x hx
        rcases List.mem_cons.mp hx with rfl | hx'
        · exact hn
        · intro hxs
          exact (ihs x hx') (List.mem_cons_of_mem _ hxs)

/-- C9: when `setNames` accepts a replacement roster, the new results
mapping answers lookups for surviving names exactly as the old one did
and has no entry for any other name (it retains exactly the entries whose
names appear in the new roster); and if the recorded outcome keys were
pairwise distinct before the edit they remain pairwise distinct after. -/
theorem setNames_retains_and_invariant (st : ServerState)
    (friendsInput : List String) (st' : ServerState)
    (h : setNames st friendsInput = Except.ok st') :
    (∀ name, st'.results.lookup name
        = if name ∈ st'.friends then st.results.lookup name else none)
    ∧ ((st.results.map (fun p => outcomeKey p.2)).Nodup →
        (st'.results.map (fun p => outcomeKey p.2)).Nodup) := by
  simp only [setNames] at h
  by_cases hz : (dedupKeepFirst []
      ((friendsInput.map trimName).filter (fun s => decide (s ≠ "")))).length = 0
  · rw [if_pos hz] at h
    cases h
  · rw [if_neg hz] at h
    have h' := Except.ok.inj h
    subst h'
    constructor
    · intro name
      exact retain_lookup st.results _ name
    · intro hk
      exact retain_keys_nodup st.results _ (dedupKeepFirst_nodup _ []).1 hk

theorem setNames_retains_and_invariant_witness :
    setNames ⟨["A", "B"], [("A", Hand.triple 3), ("B", Hand.point 5)]⟩ ["A", "C"]
      = Except.ok ⟨["A", "C"], [("A", Hand.triple 3)]⟩
    ∧ ([("A", Hand.triple 3)].map
        (fun p : String × Hand => outcomeKey p.2)).Nodup :=
  ⟨rfl,
    (setNames_retains_and_invariant
      ⟨["A", "B"], [("A", Hand.triple 3), ("B", Hand.point 5)]⟩ ["A", "C"]
      ⟨["A", "C"], [("A", Hand.triple 3)]⟩ rfl).2 (by decide)⟩
